import Mathlib

/-!
Shallow embedding of `minian/preprocessing.py` (bright-spot detection and
correction), together with theorems settling the frozen claims about it.

Modelling conventions:
* A video volume is a labelled array.  For `correct_brightspot` the axes the
  mask spans ("spot" axes) are indexed by `Fin k` and a point on them is a
  function `Fin k → ℤ` (the coordinate on each axis); the remaining axes of
  the video (the "reduce" axes, broadcast over by the correction) are
  collapsed into one abstract index type `R`.  Sample values are exact
  rationals (the source computes with floats; the claims at stake are
  arithmetic/structural, not about rounding).
* `spots.coords`/`varray.coords` are modelled as one `Finset ℤ` per axis.
* The sequential in-place loop of the source is modelled as a literal
  `List.foldl` over the flagged-point list, so that statements about reads
  seeing (or not seeing) already-corrected values are about the actual
  iteration order, not about a pre-simplified closed form.
-/

namespace Minian

/-- A point on the mask ("spot") axes: one integer coordinate per axis. -/
abbrev Pt (k : ℕ) := Fin k → ℤ

/-- Source line `if len(spot_dim) > 2: spot_thres = 0` — the effective spot
threshold. -/
def effThres (k : ℕ) (spot_thres : ℤ) : ℤ :=
  if 2 < k then 0 else spot_thres

/-- The full coordinate grid of the mask: every tuple drawn from the per-axis mask coordinate sets. -/
def maskGrid {k : ℕ} (coordsM : Fin k → Finset ℤ) : Finset (Pt k) :=
  Fintype.piFinset coordsM

/-- Source line `np.nonzero(spots.values > spot_thres)` — the flagged-point
set: mask
grid points whose mask value strictly exceeds the (effective) threshold. -/
def flaggedSet {k : ℕ} (coordsM : Fin k → Finset ℤ) (mask : Pt k → ℤ) (t : ℤ) :
    Finset (Pt k) :=
  (maskGrid coordsM).filter (fun p => t < mask p)

/-- Candidate neighbors of a flagged point: per axis,
`set(range(co - window, co + window + 1)).intersection(set(varr_ds.coords[dim]))`,
combined by `itertools.product`. -/
def candSet {k : ℕ} (coordsV : Fin k → Finset ℤ) (window : ℤ) (p : Pt k) :
    Finset (Pt k) :=
  Fintype.piFinset (fun d => Finset.Icc (p d - window) (p d + window) ∩ coordsV d)

/-- Source line `set(cur_sur_list) - set(brt_list)` — candidate neighbors
minus the whole
flagged-point set. -/
def neighborSet {k : ℕ} (coordsV coordsM : Fin k → Finset ℤ) (mask : Pt k → ℤ)
    (t window : ℤ) (p : Pt k) : Finset (Pt k) :=
  candSet coordsV window p \ flaggedSet coordsM mask t

/-- The coordinate labels of one axis in ascending order (the order in which
`np.nonzero` walks an axis). -/
def sortedCoords (s : Finset ℤ) : List ℤ :=
  s.sort (· ≤ ·)

/-- All coordinate tuples of the grid, enumerated row-major over the sorted
per-axis coordinate lists (the order `np.nonzero` reports flagged points). -/
def gridList : {k : ℕ} → (Fin k → Finset ℤ) → List (Pt k)
  | 0, _ => [fun i => i.elim0]
  | _ + 1, f =>
      (sortedCoords (f 0)).flatMap fun c =>
        (gridList (fun i => f i.succ)).map (fun g => Fin.cons c g)

/-- Source list `brt_list` — the flagged points in enumeration order. -/
def flaggedList {k : ℕ} (coordsM : Fin k → Finset ℤ) (mask : Pt k → ℤ) (t : ℤ) :
    List (Pt k) :=
  (gridList coordsM).filter (fun p => decide (t < mask p))

/-- Source line `cur_sur.mean(dim=sample)` — arithmetic mean over the
neighbor samples of the video value at a fixed reduce-axis position `r`. -/
def sampleMean {k : ℕ} {R : Type} (s : Finset (Pt k)) (v : Pt k → R → ℚ)
    (r : R) : ℚ :=
  (∑ q in s, v q r) / s.card

/-- One iteration of the correction loop: if the current flagged point `p`
has a non-empty neighbor set, overwrite the video at `p` (at every
reduce-axis position) with the mean over the neighbors of the *current*
state; otherwise (`unable to correct`) leave the state untouched. -/
def correctStep {k : ℕ} {R : Type} (coordsV coordsM : Fin k → Finset ℤ)
    (mask : Pt k → ℤ) (t window : ℤ) (st : Pt k → R → ℚ) (p : Pt k) :
    Pt k → R → ℚ :=
  let nb := neighborSet coordsV coordsM mask t window p
  if 0 < nb.card then
    fun q r => if q = p then sampleMean nb st r else st q r
  else st

/-- The sequential loop over `brt_list` (the flagged points, one state
mutation per point, later points reading the already-mutated state). -/
def correctLoop {k : ℕ} {R : Type} (coordsV coordsM : Fin k → Finset ℤ)
    (mask : Pt k → ℤ) (t window : ℤ) (v : Pt k → R → ℚ) : Pt k → R → ℚ :=
  (flaggedList coordsM mask t).foldl
    (correctStep coordsV coordsM mask t window) v

/-- Result of `correct_brightspot`: the output video together with whether a
copy of the input was made (`varr_ds = varray.copy()`). -/
structure DeSpotted (k : ℕ) (R : Type) where
  video : Pt k → R → ℚ
  copied : Bool

/-- Source function `correct_brightspot(varray, spots, window, spot_thres,
inplace)`:
short-circuit on `not spots.sum() > 0`, otherwise run the correction loop
over the flagged points under the effective threshold. -/
def correct_brightspot {k : ℕ} {R : Type} (coordsV coordsM : Fin k → Finset ℤ)
    (v : Pt k → R → ℚ) (mask : Pt k → ℤ) (window spot_thres : ℤ)
    (inplace : Bool) : DeSpotted k R :=
  if 0 < ∑ p in maskGrid coordsM, mask p then
    ⟨correctLoop coordsV coordsM mask (effThres k spot_thres) window v, !inplace⟩
  else
    ⟨v, false⟩

/-- Source call `np.quantile(a, q, interpolation=lower)` on the sample list
of a frame:
sort ascending and take the entry at index `⌊q·(n−1)⌋` (the lower of the
two bracketing sorted values, never an interpolated one). -/
def quantile_lower (l : List ℚ) (q : ℚ) : ℚ :=
  (l.insertionSort (· ≤ ·)).getD (⌊q * ((l.length : ℚ) - 1)⌋).toNat 0

/-- The per-frame thresholding `f > f.quantile(thres, interpolation=lower)`:
one boolean per pixel, computed from this frame alone. -/
def detect_frame (thres : ℚ) (fm : List ℚ) : List Bool :=
  fm.map (fun x => decide (quantile_lower fm thres < x))

/-- Source function `detect_brightspot_perframe(varray, thres)` — apply the
per-frame
thresholding to each frame independently and concatenate in frame order. -/
def detect_brightspot_perframe (thres : ℚ) (video : List (List ℚ)) :
    List (List Bool) :=
  video.map (detect_frame thres)

/-- Source line `varray.mean(dim=frame)` — the time-mean frame, with `T`
frames
indexed `0..T-1` and real-valued samples (floats modelled as reals). -/
noncomputable def meanFrame (T : ℕ) (v : ℕ → ℤ → ℤ → ℝ) (i j : ℤ) : ℝ :=
  (∑ t in Finset.range T, v t i j) / T

/-- The labelled members of a rolling window ending at label `c` on an axis
whose coordinates are `0..n-1`: the slice `[c-window+1, c]` intersected
with the axis extent (partial windows near the start have fewer members). -/
def tileCoords (n window : ℕ) (c : ℤ) : Finset ℤ :=
  Finset.Icc (c - window + 1) c ∩ Finset.Icc 0 ((n : ℤ) - 1)

/-- Column mean along the height members of a tile (scipy `zscore` is
applied with its default `axis=0`, so statistics are per width-column). -/
noncomputable def colMean (m : ℤ → ℤ → ℝ) (hs : Finset ℤ) (j : ℤ) : ℝ :=
  (∑ i in hs, m i j) / hs.card

/-- Column population variance (`ddof=0`) along the height members of the tile. -/
noncomputable def colVar (m : ℤ → ℤ → ℝ) (hs : Finset ℤ) (j : ℤ) : ℝ :=
  (∑ i in hs, (m i j - colMean m hs j) ^ 2) / hs.card

/-- Source call `scipy.stats.zscore` at the tile entry `(i, j)`: deviation
from the
column mean over the column standard deviation.  A zero standard deviation
makes the quotient `x / 0 = 0` here; in the source it yields NaN, and both
make every `z > thres` comparison false. -/
noncomputable def zsc (m : ℤ → ℤ → ℝ) (hs : Finset ℤ) (i j : ℤ) : ℝ :=
  (m i j - colMean m hs j) / Real.sqrt (colVar m hs j)

/-- Source term `mean_z.min()` — minimum z-score over the whole tile (0 for
an empty
tile, which the detector never processes). -/
noncomputable def tileMin (m : ℤ → ℤ → ℝ) (hs ws : Finset ℤ) : ℝ :=
  if h : (hs ×ˢ ws).Nonempty then
    (hs ×ˢ ws).inf' h (fun p => zsc m hs p.1 p.2)
  else 0

/-- Source lines `if not thres: cur_thres = -mean_z.min().values else:
cur_thres = thres`
— note the Python falsiness test: a supplied threshold of `0` is treated
exactly like an absent one. -/
noncomputable def curThres (thres : Option ℝ) (m : ℤ → ℤ → ℝ) (hs ws : Finset ℤ) : ℝ :=
  match thres with
  | none => -(tileMin m hs ws)
  | some t => if t = 0 then -(tileMin m hs ws) else t

open Classical in
/-- Source comparison `mean_z > cur_thres` — the pixels of the tile ending
at `t` whose
z-score strictly exceeds the active threshold of the tile. -/
noncomputable def flagSet (thres : Option ℝ) (m : ℤ → ℤ → ℝ)
    (nh nw window : ℕ) (t : ℤ × ℤ) : Finset (ℤ × ℤ) :=
  ((tileCoords nh window t.1) ×ˢ (tileCoords nw window t.2)).filter
    (fun p => curThres thres m (tileCoords nh window t.1) (tileCoords nw window t.2)
      < zsc m (tileCoords nh window t.1) p.1 p.2)

/-- The processed tile positions in loop order: height labels `0..nh-1`
retained when divisible by `step`, width labels likewise, and the tile kept
only when both of its sides have exactly `window` members. -/
def tilesList (nh nw window step : ℕ) : List (ℤ × ℤ) :=
  ((List.range nh).filter (fun ih => ih % step == 0)).flatMap (fun ih =>
    ((List.range nw).filter (fun iw => iw % step == 0
        && (tileCoords nh window (ih : ℤ)).card == window
        && (tileCoords nw window (iw : ℤ)).card == window)).map
      (fun (iw : ℕ) => ((ih : ℤ), (iw : ℤ))))

/-- Source line `spots.loc[tile slice] += mean_z > cur_thres` — the update a
tile makes to the
vote-count mask: each flagged pixel of the tile gains one vote. -/
noncomputable def detectStep (thres : Option ℝ) (m : ℤ → ℤ → ℝ)
    (nh nw window : ℕ) (mask : ℤ × ℤ → ℕ) (t : ℤ × ℤ) : ℤ × ℤ → ℕ :=
  fun p => if p ∈ flagSet thres m nh nw window t then mask p + 1 else mask p

/-- Source function `detect_brightspot(varray, thres, window, step)` — fold
the per-tile
updates over the processed tiles, starting from the all-zero mask. -/
noncomputable def detect_brightspot (T : ℕ) (v : ℕ → ℤ → ℤ → ℝ)
    (thres : Option ℝ) (nh nw window step : ℕ) : ℤ × ℤ → ℕ :=
  (tilesList nh nw window step).foldl
    (detectStep thres (meanFrame T v) nh nw window) (fun _ => 0)

lemma mem_gridList {k : ℕ} (f : Fin k → Finset ℤ) (p : Pt k) :
    p ∈ gridList f ↔ ∀ d, p d ∈ f d := by
  induction k with
  | zero =>
      simp only [gridList, List.mem_singleton]
      constructor
      · intro _ d
        exact d.elim0
      · intro _
        exact funext fun i => i.elim0
  | succ k ih =>
      simp only [gridList, List.mem_flatMap, List.mem_map, sortedCoords,
        Finset.mem_sort]
      constructor
      · rintro ⟨c, hc, g, hg, rfl⟩ d
        refine Fin.cases ?_ ?_ d
        · simpa using hc
        · intro i
          simpa using (ih _ g).mp hg i
      · intro h
        refine ⟨p 0, h 0, Fin.tail p, ?_, Fin.cons_self_tail p⟩
        exact (ih _ _).mpr fun i => h i.succ

lemma nodup_gridList {k : ℕ} (f : Fin k → Finset ℤ) : (gridList f).Nodup := by
  induction k with
  | zero => simp [gridList]
  | succ k ih =>
      simp only [gridList]
      refine List.nodup_flatMap.mpr ⟨?_, ?_⟩
      · intro c _
        refine (ih _).map ?_
        intro g g' hgg
        funext i
        simpa using congrFun hgg i.succ
      · refine List.Pairwise.imp ?_ (Finset.sort_nodup _ _)
        intro a b hab p hpa hpb
        rcases List.mem_map.mp hpa with ⟨g, _, rfl⟩
        rcases List.mem_map.mp hpb with ⟨g', _, h⟩
        have hba : b = a := by simpa using congrFun h 0
        exact hab hba.symm

lemma mem_flaggedList {k : ℕ} (coordsM : Fin k → Finset ℤ) (mask : Pt k → ℤ)
    (t : ℤ) (p : Pt k) :
    p ∈ flaggedList coordsM mask t ↔ p ∈ flaggedSet coordsM mask t := by
  simp [flaggedList, flaggedSet, maskGrid, mem_gridList, Fintype.mem_piFinset,
    List.mem_filter]

lemma nodup_flaggedList {k : ℕ} (coordsM : Fin k → Finset ℤ) (mask : Pt k → ℤ)
    (t : ℤ) : (flaggedList coordsM mask t).Nodup :=
  (nodup_gridList coordsM).filter _

section LoopLemmas

variable {k : ℕ} {R : Type} (coordsV coordsM : Fin k → Finset ℤ)
variable (mask : Pt k → ℤ) (t window : ℤ)

lemma correctStep_apply_ne (st : Pt k → R → ℚ) {x q : Pt k} (h : q ≠ x)
    (r : R) :
    correctStep coordsV coordsM mask t window st x q r = st q r := by
  by_cases h0 : 0 < (neighborSet coordsV coordsM mask t window x).card <;>
    simp [correctStep, h0, h]

lemma correctStep_apply_isolated (st : Pt k → R → ℚ) {x : Pt k}
    (h0 : (neighborSet coordsV coordsM mask t window x).card = 0) :
    correctStep coordsV coordsM mask t window st x = st := by
  simp [correctStep, h0]

lemma foldl_correctStep_preserve (p : Pt k) :
    ∀ (l : List (Pt k)) (st : Pt k → R → ℚ),
      (∀ x ∈ l, x ≠ p ∨ (neighborSet coordsV coordsM mask t window x).card = 0) →
      ∀ r, (l.foldl (correctStep coordsV coordsM mask t window) st) p r = st p r := by
  intro l
  induction l with
  | nil => intro st _ r; rfl
  | cons x l ih =>
      intro st hl r
      rw [List.foldl_cons]
      rw [ih _ fun y hy => hl y (List.mem_cons_of_mem x hy)]
      rcases hl x (List.mem_cons_self x l) with h | h
      · exact correctStep_apply_ne coordsV coordsM mask t window st
          (fun he => h he.symm) r
      · rw [correctStep_apply_isolated coordsV coordsM mask t window st h]

lemma sampleMean_congr (s : Finset (Pt k)) (st v : Pt k → R → ℚ)
    (h : ∀ q ∈ s, ∀ r, st q r = v q r) (r : R) :
    sampleMean s st r = sampleMean s v r := by
  unfold sampleMean
  rw [Finset.sum_congr rfl fun q hq => h q hq r]

lemma foldl_correctStep_mean (v : Pt k → R → ℚ) :
    ∀ (l : List (Pt k)) (st : Pt k → R → ℚ), l.Nodup →
      (∀ x ∈ l, x ∈ flaggedSet coordsM mask t) →
      (∀ q, q ∉ flaggedSet coordsM mask t → ∀ r, st q r = v q r) →
      ∀ p ∈ l, 0 < (neighborSet coordsV coordsM mask t window p).card →
      ∀ r, (l.foldl (correctStep coordsV coordsM mask t window) st) p r
        = sampleMean (neighborSet coordsV coordsM mask t window p) v r := by
  intro l
  induction l with
  | nil => intro st _ _ _ p hp; exact absurd hp (List.not_mem_nil p)
  | cons x l ih =>
      intro st hnd hmem hagree p hp hnb r
      rw [List.foldl_cons]
      rcases List.mem_cons.mp hp with rfl | hpl
      · have hpnotl : p ∉ l := (List.nodup_cons.mp hnd).1
        rw [foldl_correctStep_preserve coordsV coordsM mask t window p l _
          (fun y hy => Or.inl fun hyp => hpnotl (hyp ▸ hy)) r]
        have hstep : correctStep coordsV coordsM mask t window st p p r
            = sampleMean (neighborSet coordsV coordsM mask t window p) st r := by
          simp [correctStep, hnb]
        rw [hstep]
        refine sampleMean_congr _ st v ?_ r
        intro q hq r'
        exact hagree q (Finset.mem_sdiff.mp hq).2 r'
      · refine ih _ (List.nodup_cons.mp hnd).2
          (fun y hy => hmem y (List.mem_cons_of_mem x hy)) ?_ p hpl hnb r
        intro q hq r'
        have hx : x ∈ flaggedSet coordsM mask t := hmem x (List.mem_cons_self x l)
        rw [correctStep_apply_ne coordsV coordsM mask t window st
          (fun he : q = x => hq (he.symm ▸ hx)) r']
        exact hagree q hq r'

end LoopLemmas

/-- C8: the flagged-point set is exactly the set of mask-grid coordinate
tuples whose mask value strictly exceeds the effective spot threshold, and
when the mask spans three axes the effective threshold is zero, so exactly
the strictly positive mask entries are flagged. -/
theorem flagged_set_spec {k : ℕ} (coordsM : Fin k → Finset ℤ)
    (mask : Pt k → ℤ) (spot_thres : ℤ) (p : Pt k) :
    (p ∈ flaggedSet coordsM mask (effThres k spot_thres)
      ↔ (∀ d, p d ∈ coordsM d) ∧ effThres k spot_thres < mask p)
    ∧ (k = 3 →
      (p ∈ flaggedSet coordsM mask (effThres k spot_thres)
        ↔ (∀ d, p d ∈ coordsM d) ∧ 0 < mask p)) := by
  constructor
  · simp [flaggedSet, maskGrid, Fintype.mem_piFinset]
  · rintro rfl
    norm_num [flaggedSet, maskGrid, Fintype.mem_piFinset, effThres]

/-- C2: the neighbor set of a flagged point consists exactly of the coordinate
tuples within Chebyshev distance `window` of it on every mask axis that
also occur among the coordinates of the video, minus the flagged-point set;
consequently it never contains the point itself (when flagged), any other
flagged point, or any coordinate outside the extent of the video. -/
theorem neighbor_set_spec {k : ℕ} (coordsV coordsM : Fin k → Finset ℤ)
    (mask : Pt k → ℤ) (t window : ℤ) (p : Pt k) :
    (∀ q, q ∈ neighborSet coordsV coordsM mask t window p
      ↔ (∀ d, |q d - p d| ≤ window ∧ q d ∈ coordsV d)
        ∧ q ∉ flaggedSet coordsM mask t)
    ∧ (p ∈ flaggedSet coordsM mask t →
        p ∉ neighborSet coordsV coordsM mask t window p)
    ∧ (∀ q ∈ neighborSet coordsV coordsM mask t window p, ∀ d, q d ∈ coordsV d) := by
  refine ⟨?_, ?_, ?_⟩
  · intro q
    simp only [neighborSet, Finset.mem_sdiff, candSet, Fintype.mem_piFinset,
      Finset.mem_inter, Finset.mem_Icc, abs_le]
    constructor
    · rintro ⟨h1, h2⟩
      refine ⟨fun d => ⟨?_, (h1 d).2⟩, h2⟩
      have := (h1 d).1
      omega
    · rintro ⟨h1, h2⟩
      refine ⟨fun d => ⟨?_, (h1 d).2⟩, h2⟩
      have := (h1 d).1
      omega
  · intro hp hmem
    exact (Finset.mem_sdiff.mp hmem).2 hp
  · intro q hq d
    exact (Finset.mem_inter.mp
      ((Fintype.mem_piFinset.mp (Finset.mem_sdiff.mp hq).1) d)).2

/-- C3: if the mask has no positive entries, `correct_brightspot` returns
the input video itself, with no copy made, regardless of `inplace`. -/
theorem no_positive_mask_returns_input {k : ℕ} {R : Type}
    (coordsV coordsM : Fin k → Finset ℤ) (v : Pt k → R → ℚ) (mask : Pt k → ℤ)
    (window spot_thres : ℤ) (inplace : Bool)
    (hnp : ∀ p ∈ maskGrid coordsM, mask p ≤ 0) :
    correct_brightspot coordsV coordsM v mask window spot_thres inplace
      = ⟨v, false⟩ := by
  unfold correct_brightspot
  rw [if_neg (not_lt.mpr (Finset.sum_nonpos hnp))]

/-- Witness for C3 at a concrete 2-by-2 grid with the all-zero mask. -/
theorem no_positive_mask_returns_input_wit :
    (∀ p ∈ maskGrid (fun _ : Fin 2 => ({0, 1} : Finset ℤ)),
      (fun _ : Pt 2 => (0 : ℤ)) p ≤ 0)
    ∧ correct_brightspot (fun _ : Fin 2 => ({0, 1} : Finset ℤ))
        (fun _ : Fin 2 => ({0, 1} : Finset ℤ))
        (fun _ : Pt 2 => fun _ : Fin 1 => (5 : ℚ))
        (fun _ : Pt 2 => (0 : ℤ)) 2 10 false
      = ⟨fun _ _ => 5, false⟩ :=
  ⟨by decide,
    no_positive_mask_returns_input _ _ _ _ 2 10 false (by decide)⟩

/-- C10: any coordinate that is not a flagged point keeps its input value,
whether the call short-circuits or runs the correction loop. -/
theorem non_flagged_unchanged {k : ℕ} {R : Type}
    (coordsV coordsM : Fin k → Finset ℤ) (v : Pt k → R → ℚ) (mask : Pt k → ℤ)
    (window spot_thres : ℤ) (inplace : Bool)
    (_hpos : ∃ p ∈ maskGrid coordsM, 0 < mask p) (q : Pt k)
    (hq : q ∉ flaggedSet coordsM mask (effThres k spot_thres)) (r : R) :
    (correct_brightspot coordsV coordsM v mask window spot_thres inplace).video q r
      = v q r := by
  unfold correct_brightspot
  by_cases hs : 0 < ∑ p in maskGrid coordsM, mask p
  · rw [if_pos hs]
    show correctLoop coordsV coordsM mask (effThres k spot_thres) window v q r = v q r
    refine foldl_correctStep_preserve coordsV coordsM mask _ window q _ v ?_ r
    intro x hx
    exact Or.inl fun hxq => hq (hxq ▸ (mem_flaggedList coordsM mask _ x).mp hx)
  · rw [if_neg hs]

/-- Witness for C10: a 3-point line with one flagged point; an unflagged
point keeps its value. -/
theorem non_flagged_unchanged_wit :
    (∃ p ∈ maskGrid (fun _ : Fin 1 => ({0, 1, 2} : Finset ℤ)),
      0 < (fun p : Pt 1 => if p 0 = 1 then (11 : ℤ) else 0) p)
    ∧ ((fun _ : Fin 1 => (0 : ℤ))
        ∉ flaggedSet (fun _ : Fin 1 => ({0, 1, 2} : Finset ℤ))
          (fun p : Pt 1 => if p 0 = 1 then (11 : ℤ) else 0) (effThres 1 10))
    ∧ (correct_brightspot (fun _ : Fin 1 => ({0, 1, 2} : Finset ℤ))
        (fun _ : Fin 1 => ({0, 1, 2} : Finset ℤ))
        (fun p : Pt 1 => fun _ : Fin 1 => (p 0 : ℚ))
        (fun p : Pt 1 => if p 0 = 1 then (11 : ℤ) else 0) 2 10 true).video
        (fun _ => 0) 0
      = (fun p : Pt 1 => fun _ : Fin 1 => (p 0 : ℚ)) (fun _ => 0) 0 :=
  ⟨by decide, by decide,
    non_flagged_unchanged _ _ _ _ 2 10 true (by decide) _ (by decide) 0⟩

/-- C1 (amended): on a call that passes the positive-sum short-circuit test,
every flagged point with a non-empty neighbor set receives, at every
reduce-axis position, the arithmetic mean over its neighbor set of the
values the *input* video held there — the sequential loop never lets a neighbor
read see an already-corrected value of another point. -/
theorem corrected_value_is_neighbor_mean {k : ℕ} {R : Type}
    (coordsV coordsM : Fin k → Finset ℤ) (v : Pt k → R → ℚ) (mask : Pt k → ℤ)
    (window spot_thres : ℤ) (inplace : Bool)
    (hsum : 0 < ∑ p in maskGrid coordsM, mask p) (p : Pt k)
    (hp : p ∈ flaggedSet coordsM mask (effThres k spot_thres))
    (hnb : 0 < (neighborSet coordsV coordsM mask (effThres k spot_thres) window p).card)
    (r : R) :
    (correct_brightspot coordsV coordsM v mask window spot_thres inplace).video p r
      = sampleMean (neighborSet coordsV coordsM mask (effThres k spot_thres) window p)
          v r := by
  unfold correct_brightspot
  rw [if_pos hsum]
  show correctLoop coordsV coordsM mask (effThres k spot_thres) window v p r = _
  exact foldl_correctStep_mean coordsV coordsM mask _ window v _ v
    (nodup_flaggedList coordsM mask _)
    (fun x hx => (mem_flaggedList coordsM mask _ x).mp hx)
    (fun _ _ _ => rfl) p ((mem_flaggedList coordsM mask _ p).mpr hp) hnb r

/-- Counterexample to C1 as stated: a mask holding one positive and three
negative entries sums to a non-positive value, so the call short-circuits
and the flagged point with three valid neighbors keeps its original value
instead of receiving the neighbor mean. -/
theorem corrected_value_is_neighbor_mean_cex :
    ((fun _ : Fin 2 => (0 : ℤ))
      ∈ flaggedSet (fun _ : Fin 2 => ({0, 1} : Finset ℤ))
        (fun p : Pt 2 => if p 0 = 0 ∧ p 1 = 0 then 1 else -1) (effThres 2 0))
    ∧ 0 < (neighborSet (fun _ : Fin 2 => ({0, 1} : Finset ℤ))
        (fun _ : Fin 2 => ({0, 1} : Finset ℤ))
        (fun p : Pt 2 => if p 0 = 0 ∧ p 1 = 0 then 1 else -1) (effThres 2 0) 2
        (fun _ => 0)).card
    ∧ ¬ ((correct_brightspot (fun _ : Fin 2 => ({0, 1} : Finset ℤ))
        (fun _ : Fin 2 => ({0, 1} : Finset ℤ))
        (fun p : Pt 2 => fun _ : Fin 1 => if p 0 = 0 ∧ p 1 = 0 then (100 : ℚ) else 7)
        (fun p : Pt 2 => if p 0 = 0 ∧ p 1 = 0 then 1 else -1) 2 0 true).video
        (fun _ => 0) 0
      = sampleMean (neighborSet (fun _ : Fin 2 => ({0, 1} : Finset ℤ))
          (fun _ : Fin 2 => ({0, 1} : Finset ℤ))
          (fun p : Pt 2 => if p 0 = 0 ∧ p 1 = 0 then 1 else -1) (effThres 2 0) 2
          (fun _ => 0))
          (fun p : Pt 2 => fun _ : Fin 1 => if p 0 = 0 ∧ p 1 = 0 then (100 : ℚ) else 7)
          0) := by
  refine ⟨by decide, by decide, ?_⟩
  intro h
  have hv : (correct_brightspot (fun _ : Fin 2 => ({0, 1} : Finset ℤ))
      (fun _ : Fin 2 => ({0, 1} : Finset ℤ))
      (fun p : Pt 2 => fun _ : Fin 1 => if p 0 = 0 ∧ p 1 = 0 then (100 : ℚ) else 7)
      (fun p : Pt 2 => if p 0 = 0 ∧ p 1 = 0 then 1 else -1) 2 0 true).video
      (fun _ => 0) 0 = 100 := rfl
  have h1 : neighborSet (fun _ : Fin 2 => ({0, 1} : Finset ℤ))
      (fun _ : Fin 2 => ({0, 1} : Finset ℤ))
      (fun p : Pt 2 => if p 0 = 0 ∧ p 1 = 0 then 1 else -1) (effThres 2 0) 2
      (fun _ => 0)
      = ({![0, 1], ![1, 0], ![1, 1]} : Finset (Pt 2)) := by decide
  have hc : ({![0, 1], ![1, 0], ![1, 1]} : Finset (Pt 2)).card = 3 := by decide
  rw [hv, h1] at h
  unfold sampleMean at h
  rw [Finset.sum_insert (by decide), Finset.sum_insert (by decide),
    Finset.sum_singleton, hc] at h
  norm_num [Matrix.cons_val_zero, Matrix.cons_val_one, Matrix.head_cons] at h

/-- Witness for the amended C1: three valid neighbors valued 1, 2, 3 give
the flagged point the corrected value 2. -/
theorem corrected_value_is_neighbor_mean_wit :
    (0 < ∑ p in maskGrid (fun _ : Fin 2 => ({0, 1} : Finset ℤ)),
      (fun p : Pt 2 => if p 0 = 0 ∧ p 1 = 0 then (1 : ℤ) else 0) p)
    ∧ ((fun _ : Fin 2 => (0 : ℤ))
      ∈ flaggedSet (fun _ : Fin 2 => ({0, 1} : Finset ℤ))
        (fun p : Pt 2 => if p 0 = 0 ∧ p 1 = 0 then (1 : ℤ) else 0) (effThres 2 0))
    ∧ 0 < (neighborSet (fun _ : Fin 2 => ({0, 1} : Finset ℤ))
        (fun _ : Fin 2 => ({0, 1} : Finset ℤ))
        (fun p : Pt 2 => if p 0 = 0 ∧ p 1 = 0 then (1 : ℤ) else 0) (effThres 2 0) 2
        (fun _ => 0)).card
    ∧ (correct_brightspot (fun _ : Fin 2 => ({0, 1} : Finset ℤ))
          (fun _ : Fin 2 => ({0, 1} : Finset ℤ))
          (fun p : Pt 2 => fun _ : Fin 1 =>
            if p 0 = 0 ∧ p 1 = 0 then (100 : ℚ)
            else if p 0 = 0 then 1 else if p 1 = 0 then 2 else 3)
          (fun p : Pt 2 => if p 0 = 0 ∧ p 1 = 0 then (1 : ℤ) else 0) 2 0 true).video
        (fun _ => 0) 0 = 2 :=
  ⟨by decide, by decide, by decide, by
    rw [corrected_value_is_neighbor_mean _ _ _ _ 2 0 true (by decide) _
      (by decide) (by decide) 0]
    have h1 : neighborSet (fun _ : Fin 2 => ({0, 1} : Finset ℤ))
        (fun _ : Fin 2 => ({0, 1} : Finset ℤ))
        (fun p : Pt 2 => if p 0 = 0 ∧ p 1 = 0 then (1 : ℤ) else 0) (effThres 2 0) 2
        (fun _ => 0)
        = ({![0, 1], ![1, 0], ![1, 1]} : Finset (Pt 2)) := by decide
    have hc : ({![0, 1], ![1, 0], ![1, 1]} : Finset (Pt 2)).card = 3 := by decide
    rw [h1]
    unfold sampleMean
    rw [Finset.sum_insert (by decide), Finset.sum_insert (by decide),
      Finset.sum_singleton, hc]
    norm_num [Matrix.cons_val_zero, Matrix.cons_val_one, Matrix.head_cons]⟩

/-- C4: a flagged point whose neighbor set is empty keeps its input value
at every reduce-axis position, while the call still completes and corrects
every flagged point that does have neighbors. -/
theorem isolated_point_unchanged {k : ℕ} {R : Type}
    (coordsV coordsM : Fin k → Finset ℤ) (v : Pt k → R → ℚ) (mask : Pt k → ℤ)
    (window spot_thres : ℤ) (inplace : Bool) (p : Pt k)
    (hp : p ∈ flaggedSet coordsM mask (effThres k spot_thres))
    (hemp : neighborSet coordsV coordsM mask (effThres k spot_thres) window p = ∅) :
    (∀ r, (correct_brightspot coordsV coordsM v mask window spot_thres inplace).video p r
      = v p r)
    ∧ (∀ q, q ∈ flaggedSet coordsM mask (effThres k spot_thres) →
      0 < (neighborSet coordsV coordsM mask (effThres k spot_thres) window q).card →
      0 < ∑ x in maskGrid coordsM, mask x →
      ∀ r, (correct_brightspot coordsV coordsM v mask window spot_thres inplace).video q r
        = sampleMean (neighborSet coordsV coordsM mask (effThres k spot_thres) window q)
            v r) := by
  constructor
  · intro r
    unfold correct_brightspot
    by_cases hs : 0 < ∑ x in maskGrid coordsM, mask x
    · rw [if_pos hs]
      show correctLoop coordsV coordsM mask (effThres k spot_thres) window v p r = v p r
      refine foldl_correctStep_preserve coordsV coordsM mask _ window p _ v ?_ r
      intro x _
      by_cases hxp : x = p
      · subst hxp
        right
        rw [hemp]
        rfl
      · exact Or.inl hxp
    · rw [if_neg hs]
  · intro q hq hnb hs r
    unfold correct_brightspot
    rw [if_pos hs]
    show correctLoop coordsV coordsM mask (effThres k spot_thres) window v q r = _
    exact foldl_correctStep_mean coordsV coordsM mask _ window v _ v
      (nodup_flaggedList coordsM mask _)
      (fun x hx => (mem_flaggedList coordsM mask _ x).mp hx)
      (fun _ _ _ => rfl) q ((mem_flaggedList coordsM mask _ q).mpr hq) hnb r

/-- Witness for C4: a 2-by-2 grid in which every point is flagged, so every
neighbor set is empty; the point keeps its original value 50. -/
theorem isolated_point_unchanged_wit :
    ((fun _ : Fin 2 => (0 : ℤ))
      ∈ flaggedSet (fun _ : Fin 2 => ({0, 1} : Finset ℤ)) (fun _ : Pt 2 => (1 : ℤ))
        (effThres 2 0))
    ∧ (neighborSet (fun _ : Fin 2 => ({0, 1} : Finset ℤ))
        (fun _ : Fin 2 => ({0, 1} : Finset ℤ)) (fun _ : Pt 2 => (1 : ℤ))
        (effThres 2 0) 2 (fun _ => 0) = ∅)
    ∧ (correct_brightspot (fun _ : Fin 2 => ({0, 1} : Finset ℤ))
        (fun _ : Fin 2 => ({0, 1} : Finset ℤ))
        (fun _ : Pt 2 => fun _ : Fin 1 => (50 : ℚ)) (fun _ : Pt 2 => (1 : ℤ))
        2 0 true).video (fun _ => 0) 0 = 50 :=
  ⟨by decide, by decide, by
    rw [(isolated_point_unchanged _ _ _ _ 2 0 true _ (by decide) (by decide)).1 0]⟩

/-- C5: for every frame and every pixel position in range, the per-frame
detector flags the pixel exactly when its value strictly exceeds the
lower-interpolation `thres`-quantile, and the output for a frame
is a function of that frame alone. -/
theorem perframe_flags_above_lower_quantile (video : List (List ℚ)) (thres : ℚ)
    (i j : ℕ) (hi : i < video.length) (hj : j < (video.getD i []).length) :
    ((((detect_brightspot_perframe thres video).getD i []).getD j false) = true
      ↔ quantile_lower (video.getD i []) thres < (video.getD i []).getD j 0)
    ∧ (detect_brightspot_perframe thres video).getD i []
        = detect_frame thres (video.getD i []) := by
  have h2 : (detect_brightspot_perframe thres video).getD i []
      = detect_frame thres (video.getD i []) := by
    simp [detect_brightspot_perframe, List.getD_eq_getElem?_getD,
      List.getElem?_map, List.getElem?_eq_getElem hi]
  refine ⟨?_, h2⟩
  rw [h2]
  rw [List.getD_eq_getElem?_getD video i []] at hj
  simp [detect_frame, List.getD_eq_getElem?_getD, List.getElem?_map,
    List.getElem?_eq_getElem hj]

/-- Witness for C5: the frame `[1, 2, 3, 4]` with `thres = 1/2` has
lower-interpolated median 2 and flags exactly the pixels valued 3 and 4. -/
theorem perframe_flags_above_lower_quantile_wit :
    0 < ([[(1 : ℚ), 2, 3, 4]] : List (List ℚ)).length
    ∧ 2 < (([[(1 : ℚ), 2, 3, 4]] : List (List ℚ)).getD 0 []).length
    ∧ quantile_lower (([[(1 : ℚ), 2, 3, 4]] : List (List ℚ)).getD 0 []) (1 / 2) = 2
    ∧ ((((detect_brightspot_perframe (1 / 2) [[(1 : ℚ), 2, 3, 4]]).getD 0 []).getD 2 false) = true
      ↔ quantile_lower (([[(1 : ℚ), 2, 3, 4]] : List (List ℚ)).getD 0 []) (1 / 2)
          < (([[(1 : ℚ), 2, 3, 4]] : List (List ℚ)).getD 0 []).getD 2 0)
    ∧ detect_brightspot_perframe (1 / 2) [[(1 : ℚ), 2, 3, 4]]
        = [[false, false, true, true]] :=
  ⟨by decide, by decide,
    by norm_num [quantile_lower, List.insertionSort, List.orderedInsert],
    (perframe_flags_above_lower_quantile [[(1 : ℚ), 2, 3, 4]] (1 / 2) 0 2
      (by decide) (by decide)).1,
    by norm_num [detect_brightspot_perframe, detect_frame, quantile_lower,
      List.insertionSort, List.orderedInsert]⟩

lemma foldl_detectStep_count (thres : Option ℝ) (m : ℤ → ℤ → ℝ)
    (nh nw window : ℕ) (p : ℤ × ℤ) :
    ∀ (l : List (ℤ × ℤ)) (m0 : ℤ × ℤ → ℕ),
      (l.foldl (detectStep thres m nh nw window) m0) p
        = m0 p + l.countP (fun t => decide (p ∈ flagSet thres m nh nw window t)) := by
  intro l
  induction l with
  | nil => intro m0; simp
  | cons t l ih =>
      intro m0
      rw [List.foldl_cons, ih, List.countP_cons]
      by_cases hp : p ∈ flagSet thres m nh nw window t
      · have hd : decide (p ∈ flagSet thres m nh nw window t) = true :=
          decide_eq_true hp
        simp only [detectStep, if_pos hp, hd, if_true]
        omega
      · simp [detectStep, hp]

lemma mem_tilesList (nh nw window step : ℕ) (t : ℤ × ℤ) :
    t ∈ tilesList nh nw window step
      ↔ 0 ≤ t.1 ∧ t.1 < nh ∧ (step : ℤ) ∣ t.1
        ∧ (tileCoords nh window t.1).card = window
        ∧ 0 ≤ t.2 ∧ t.2 < nw ∧ (step : ℤ) ∣ t.2
        ∧ (tileCoords nw window t.2).card = window := by
  constructor
  · intro htl
    obtain ⟨ih, hih, hmem⟩ := List.mem_flatMap.mp htl
    obtain ⟨iw, hiw, heq⟩ := List.mem_map.mp hmem
    obtain ⟨hihr, hihs⟩ := List.mem_filter.mp hih
    obtain ⟨hiwr, hiwc⟩ := List.mem_filter.mp hiw
    simp only [Bool.and_eq_true, beq_iff_eq] at hihs hiwc
    obtain ⟨⟨hiws, hch⟩, hcw⟩ := hiwc
    subst heq
    refine ⟨Int.natCast_nonneg ih, ?_, ?_, hch, Int.natCast_nonneg iw, ?_, ?_, hcw⟩
    · show (ih : ℤ) < (nh : ℤ)
      exact_mod_cast List.mem_range.mp hihr
    · exact Int.natCast_dvd_natCast.mpr (Nat.dvd_of_mod_eq_zero hihs)
    · show (iw : ℤ) < (nw : ℤ)
      exact_mod_cast List.mem_range.mp hiwr
    · exact Int.natCast_dvd_natCast.mpr (Nat.dvd_of_mod_eq_zero hiws)
  · rintro ⟨h1, h2, h3, h4, h5, h6, h7, h8⟩
    have hd1 : step ∣ t.1.toNat := by
      refine Int.natCast_dvd_natCast.mp ?_
      rwa [Int.toNat_of_nonneg h1]
    have hd2 : step ∣ t.2.toNat := by
      refine Int.natCast_dvd_natCast.mp ?_
      rwa [Int.toNat_of_nonneg h5]
    have hr1 : t.1.toNat ∈ List.range nh := List.mem_range.mpr (by omega)
    have hr2 : t.2.toNat ∈ List.range nw := List.mem_range.mpr (by omega)
    refine List.mem_flatMap.mpr ⟨t.1.toNat,
      List.mem_filter.mpr ⟨hr1, beq_iff_eq.mpr (Nat.mod_eq_zero_of_dvd hd1)⟩, ?_⟩
    refine List.mem_map.mpr ⟨t.2.toNat, List.mem_filter.mpr ⟨hr2, ?_⟩, ?_⟩
    · simp only [Bool.and_eq_true, beq_iff_eq]
      refine ⟨⟨Nat.mod_eq_zero_of_dvd hd2, ?_⟩, ?_⟩
      · rwa [Int.toNat_of_nonneg h1]
      · rwa [Int.toNat_of_nonneg h5]
    · rw [Int.toNat_of_nonneg h1, Int.toNat_of_nonneg h5]

/-- C6: the mask value of the windowed detector at any pixel equals the number
of processed tiles whose z-score test flagged that pixel, is bounded by the
number of processed tiles covering the pixel, and the processed tiles are
exactly the step-aligned positions whose window slices have exactly
`window` members on both axes. -/
theorem windowed_mask_is_vote_count (T : ℕ) (v : ℕ → ℤ → ℤ → ℝ)
    (thres : Option ℝ) (nh nw window step : ℕ)
    (_hwin : 0 < window) (_hstep : 0 < step) (p : ℤ × ℤ) :
    detect_brightspot T v thres nh nw window step p
      = (tilesList nh nw window step).countP
          (fun t => decide (p ∈ flagSet thres (meanFrame T v) nh nw window t))
    ∧ detect_brightspot T v thres nh nw window step p
      ≤ (tilesList nh nw window step).countP
          (fun t => decide (p ∈ (tileCoords nh window t.1) ×ˢ (tileCoords nw window t.2)))
    ∧ (∀ t : ℤ × ℤ, t ∈ tilesList nh nw window step
        ↔ 0 ≤ t.1 ∧ t.1 < nh ∧ (step : ℤ) ∣ t.1
          ∧ (tileCoords nh window t.1).card = window
          ∧ 0 ≤ t.2 ∧ t.2 < nw ∧ (step : ℤ) ∣ t.2
          ∧ (tileCoords nw window t.2).card = window) := by
  have hcount : detect_brightspot T v thres nh nw window step p
      = (tilesList nh nw window step).countP
          (fun t => decide (p ∈ flagSet thres (meanFrame T v) nh nw window t)) := by
    simpa using foldl_detectStep_count thres (meanFrame T v) nh nw window p
      (tilesList nh nw window step) (fun _ => 0)
  refine ⟨hcount, ?_, mem_tilesList nh nw window step⟩
  rw [hcount]
  refine List.countP_mono_left ?_
  intro t _ hdec
  simp only [decide_eq_true_eq] at hdec ⊢
  exact Finset.filter_subset _ _ hdec

/-- Witness for C6 on a concrete 1-frame, 1-by-1 video with unit tile. -/
theorem windowed_mask_is_vote_count_wit :
    0 < 1 ∧ 0 < 1
    ∧ (detect_brightspot 1 (fun _ _ _ => (0 : ℝ)) none 1 1 1 1 (0, 0)
      = (tilesList 1 1 1 1).countP
          (fun t => decide ((0, 0) ∈ flagSet none (meanFrame 1 (fun _ _ _ => (0 : ℝ))) 1 1 1 t))) :=
  ⟨Nat.one_pos, Nat.one_pos,
    (windowed_mask_is_vote_count 1 (fun _ _ _ => (0 : ℝ)) none 1 1 1 1
      Nat.one_pos Nat.one_pos (0, 0)).1⟩

/-- C7: if the time-mean frame is constant then, with no threshold
supplied, no pixel of any tile passes the z-score test (the zero-variance
z-score contributes no flag), so the detector returns the all-zero mask. -/
theorem constant_frame_gives_zero_mask (T : ℕ) (v : ℕ → ℤ → ℤ → ℝ)
    (nh nw window step : ℕ) (c : ℝ) (hc : ∀ i j, meanFrame T v i j = c)
    (p : ℤ × ℤ) :
    detect_brightspot T v none nh nw window step p = 0 := by
  have hall : ∀ t ∈ tilesList nh nw window step,
      ¬ ((fun t => decide (p ∈ flagSet none (meanFrame T v) nh nw window t)) t = true) := by
    intro t _
    simp only [decide_eq_true_eq]
    intro hmem
    rw [flagSet, Finset.mem_filter] at hmem
    obtain ⟨hpr, hlt⟩ := hmem
    obtain ⟨hp1, _⟩ := Finset.mem_product.mp hpr
    have hcardne : ((tileCoords nh window t.1).card : ℝ) ≠ 0 := by
      exact_mod_cast Finset.card_ne_zero_of_mem hp1
    have hmean : ∀ j, colMean (meanFrame T v) (tileCoords nh window t.1) j = c := by
      intro j
      rw [colMean]
      rw [Finset.sum_congr rfl fun i _ => hc i j]
      rw [Finset.sum_const, nsmul_eq_mul]
      exact mul_div_cancel_left₀ c hcardne
    have hz : ∀ i j, zsc (meanFrame T v) (tileCoords nh window t.1) i j = 0 := by
      intro i j
      rw [zsc, hc i j, hmean j, sub_self, zero_div]
    have htm : tileMin (meanFrame T v) (tileCoords nh window t.1)
        (tileCoords nw window t.2) = 0 := by
      rw [tileMin]
      rcases em ((tileCoords nh window t.1 ×ˢ tileCoords nw window t.2).Nonempty) with hne | hne
      · rw [dif_pos hne]
        rw [Finset.inf'_congr hne rfl fun q _ => hz q.1 q.2]
        exact Finset.inf'_const hne 0
      · rw [dif_neg hne]
    rw [curThres, htm, neg_zero, hz p.1 p.2] at hlt
    exact lt_irrefl 0 hlt
  rw [detect_brightspot]
  rw [foldl_detectStep_count]
  rw [List.countP_eq_zero.mpr hall]

/-- Witness for C7: a constant 1-frame video of value 5 on a 4-by-4 grid
yields the zero mask at the origin. -/
theorem constant_frame_gives_zero_mask_wit :
    (∀ i j, meanFrame 1 (fun _ _ _ => (5 : ℝ)) i j = 5)
    ∧ detect_brightspot 1 (fun _ _ _ => (5 : ℝ)) none 4 4 2 1 (0, 0) = 0 :=
  ⟨fun i j => by simp [meanFrame],
    constant_frame_gives_zero_mask 1 (fun _ _ _ => (5 : ℝ)) 4 4 2 1 5
      (fun i j => by simp [meanFrame]) (0, 0)⟩

/-- C9 (amended): a supplied *nonzero* threshold is the active threshold of
every processed tile — a pixel is flagged in a tile exactly when it lies in
the tile and its z-score exceeds the supplied value — while an absent
threshold gives each tile the adaptive value `-(min z-score)`; a supplied
threshold of `0` is falsy in the source test `if not thres:` and is
treated like an absent one (see the counterexample). -/
theorem supplied_threshold_used (t : ℝ) (ht : t ≠ 0) (m : ℤ → ℤ → ℝ)
    (hs ws : Finset ℤ) :
    curThres (some t) m hs ws = t
    ∧ curThres none m hs ws = -(tileMin m hs ws)
    ∧ (∀ (nh nw window : ℕ) (tile p : ℤ × ℤ),
        p ∈ flagSet (some t) m nh nw window tile
          ↔ p ∈ (tileCoords nh window tile.1) ×ˢ (tileCoords nw window tile.2)
            ∧ t < zsc m (tileCoords nh window tile.1) p.1 p.2) := by
  have h1 : ∀ hs' ws' : Finset ℤ, curThres (some t) m hs' ws' = t := by
    intro hs' ws'
    simp [curThres, ht]
  refine ⟨h1 hs ws, rfl, ?_⟩
  intro nh nw window tile p
  rw [flagSet, Finset.mem_filter, h1]

/-- Witness for the amended C9 with threshold 1. -/
theorem supplied_threshold_used_wit :
    (1 : ℝ) ≠ 0
    ∧ curThres (some 1) (fun _ _ => 0) ∅ ∅ = 1 :=
  ⟨one_ne_zero,
    (supplied_threshold_used 1 one_ne_zero (fun _ _ => 0) ∅ ∅).1⟩

/-- Counterexample to C9 as stated: on a 2-by-2 one-frame video with mean
frame `m i j = 2 i`, the tile at `(1, 1)` is processed, yet a supplied
threshold of `0` is discarded by the `if not thres:` falsiness test and the
active threshold of the tile is the adaptive value `1`, not the supplied `0`. -/
theorem supplied_threshold_used_cex :
    ((1 : ℤ), (1 : ℤ)) ∈ tilesList 2 2 2 1
    ∧ curThres (some 0) (meanFrame 1 (fun _ i _ => ((2 * i : ℤ) : ℝ)))
        (tileCoords 2 2 1) (tileCoords 2 2 1) = 1
    ∧ (1 : ℝ) ≠ 0 := by
  refine ⟨by decide, ?_, one_ne_zero⟩
  have hco : tileCoords 2 2 1 = ({0, 1} : Finset ℤ) := by decide
  have hm : ∀ i j : ℤ, meanFrame 1 (fun _ i _ => ((2 * i : ℤ) : ℝ)) i j
      = ((2 * i : ℤ) : ℝ) := by
    intro i j
    simp [meanFrame]
  have hmean : ∀ j : ℤ,
      colMean (meanFrame 1 (fun _ i _ => ((2 * i : ℤ) : ℝ))) ({0, 1} : Finset ℤ) j = 1 := by
    intro j
    rw [colMean, Finset.sum_insert (by decide), Finset.sum_singleton, hm, hm]
    norm_num
  have hvar : ∀ j : ℤ,
      colVar (meanFrame 1 (fun _ i _ => ((2 * i : ℤ) : ℝ))) ({0, 1} : Finset ℤ) j = 1 := by
    intro j
    rw [colVar, Finset.sum_insert (by decide), Finset.sum_singleton, hm, hm, hmean j]
    norm_num
  have hz : ∀ i j : ℤ,
      zsc (meanFrame 1 (fun _ i _ => ((2 * i : ℤ) : ℝ))) ({0, 1} : Finset ℤ) i j
        = ((2 * i : ℤ) : ℝ) - 1 := by
    intro i j
    rw [zsc, hm, hmean j, hvar j, Real.sqrt_one, div_one]
  have htm : tileMin (meanFrame 1 (fun _ i _ => ((2 * i : ℤ) : ℝ)))
      ({0, 1} : Finset ℤ) ({0, 1} : Finset ℤ) = -1 := by
    rw [tileMin, dif_pos ⟨(0, 0), by decide⟩]
    refine le_antisymm ?_ ?_
    · refine Finset.inf'_le _ (by decide : ((0 : ℤ), (0 : ℤ)) ∈ _) |>.trans ?_
      rw [hz]
      norm_num
    · refine Finset.le_inf' _ _ ?_
      intro b hb
      rw [hz]
      have hb1 : b.1 ∈ ({0, 1} : Finset ℤ) := (Finset.mem_product.mp hb).1
      rcases Finset.mem_insert.mp hb1 with hb1 | hb1
      · rw [hb1]; norm_num
      · rw [Finset.mem_singleton.mp hb1]; norm_num
  rw [hco, curThres, if_pos rfl, htm, neg_neg]

end Minian
